import Mathlib

/-!
Shallow embedding of the DeepRacer simulator kernel (src/sim.py) and
verification of its specification claims.

Modelling conventions:
* Python floats are modelled by real numbers (geometry, trigonometry) or by
  rationals (control flow that only adds, subtracts and compares), so the
  arithmetic is the exact arithmetic the source expresses.
* Python's float("inf") sentinel is modelled by the top element of WithTop.
* IEEE special values relevant to the reward comparisons (nan, +inf, -inf)
  are modelled by the FVal type whose comparison functions mirror IEEE
  comparison semantics (any comparison with nan is false).
* 2-D points (Python two-element lists) are modelled as pairs.
-/

namespace DeepracerSim

open Real

/-- Source constant MIN_REWARD = 0.0001 (written with mkRat so that the
kernel can evaluate comparisons against it; see MIN_REWARD_Q_eq). -/
def MIN_REWARD_Q : ℚ := mkRat 1 10000

/-- Source constant STEERING_ANGLE = [-30, -20, -10, 0, 10, 20, 30]. -/
def STEERING_ANGLE : List ℤ := [-30, -20, -10, 0, 10, 20, 30]

/-- IEEE-style reward value: nan, +infinity, -infinity, or a finite value
(finite payloads modelled as rationals). -/
inductive FVal where
  | nan : FVal
  | inf : FVal
  | ninf : FVal
  | fin : ℚ → FVal
deriving DecidableEq

/-- IEEE greater-than on FVal: any comparison involving nan is false. -/
def fgt : FVal → FVal → Bool
  | FVal.nan, _ => false
  | _, FVal.nan => false
  | FVal.inf, FVal.inf => false
  | FVal.inf, _ => true
  | FVal.ninf, _ => false
  | FVal.fin _, FVal.inf => false
  | FVal.fin _, FVal.ninf => true
  | FVal.fin a, FVal.fin b => decide (b < a)

/-- IEEE equality on FVal: any comparison involving nan is false. -/
def feq : FVal → FVal → Bool
  | FVal.nan, _ => false
  | _, FVal.nan => false
  | FVal.inf, FVal.inf => true
  | FVal.ninf, FVal.ninf => true
  | FVal.fin a, FVal.fin b => decide (a = b)
  | _, _ => false

/-- IEEE less-than on FVal. -/
def flt (a b : FVal) : Bool := fgt b a

/-- The MIN_REWARD floor as an FVal. -/
def MIN_REWARD : FVal := FVal.fin MIN_REWARD_Q

/-- One step of the candidate-evaluation loop of run() (sim.py lines
640-654): given the accumulated (indexes, max_reward) and the next
(index, steering angle) pair, update the winning set exactly as the source
does with reward > max_reward / reward == max_reward. -/
def evalStep (f : ℤ → FVal) (acc : List ℕ × FVal) (ia : ℕ × ℤ) : List ℕ × FVal :=
  let reward := f ia.2
  if fgt reward acc.2 then ([ia.1], reward)
  else if feq reward acc.2 then (acc.1 ++ [ia.1], acc.2)
  else acc

/-- The candidate-evaluation loop of run() (sim.py lines 630-654): iterate
over the enumerated STEERING_ANGLE list, with the reward function modelled
as a map from steering angle to FVal (only the steering_angle entry of the
params mapping changes between candidates in one tick).  Initial state is
(no indexes, MIN_REWARD). -/
def evalCandidates (f : ℤ → FVal) : List ℕ × FVal :=
  STEERING_ANGLE.enum.foldl (evalStep f) ([], MIN_REWARD)

/-- The action-selection tail of run() (sim.py lines 656-666): with n the
number of tied winners, pick -1 and angle 0 when n = 0, the single winner
when n = 1, and a random member of indexes when n > 1 (random.randint is
modelled by an injected natural number taken modulo n).  Returns
(pick, angle). -/
def selectAction (f : ℤ → FVal) (rand : ℕ) : ℤ × ℤ :=
  let indexes := (evalCandidates f).1
  match indexes with
  | [] => (-1, 0)
  | [i] => ((i : ℤ), STEERING_ANGLE.getD i 0)
  | _ =>
      let i := indexes.getD (rand % indexes.length) 0
      ((i : ℤ), STEERING_ANGLE.getD i 0)

/-- Lap-tracking state of run(): steps, prev_prograss, start_time,
prev_time and record (the two latter start at float("inf"), modelled by
the top element of WithTop). -/
structure LapState where
  steps : ℕ
  prevProgress : ℚ
  startTime : ℚ
  prevTime : WithTop ℚ
  record : WithTop ℚ
deriving DecidableEq

/-- The lap-wrap reset of run() (sim.py lines 545-547): when steps > 0 and
prev_prograss > progress, the step counter becomes 0 and start_time becomes
the current time; otherwise both are kept. -/
def lapWrapReset (s : LapState) (progress now : ℚ) : ℕ × ℚ :=
  if 0 < s.steps ∧ progress < s.prevProgress then (0, now)
  else (s.steps, s.startTime)

/-- One tick of the lap bookkeeping of run() (sim.py lines 543-549 and
675-683): wrap reset, steps increment, prev_prograss update, race_time
computation, and the record update (record = prev_time whenever
progress == 0 and prev_time > 5) followed by prev_time = race_time. -/
def lapTick (s : LapState) (progress now : ℚ) : LapState :=
  let r := lapWrapReset s progress now
  let raceTime := now - r.2
  let record2 := if progress = 0 ∧ ((5 : ℚ) : WithTop ℚ) < s.prevTime then s.prevTime else s.record
  { steps := r.1 + 1
    prevProgress := progress
    startTime := r.2
    prevTime := (raceTime : WithTop ℚ)
    record := record2 }

/-- The heading normalization of Car.move (sim.py lines 393-396): one
wraparound correction step. -/
def normalizeAngle (a : ℚ) : ℚ :=
  if 180 < a then a - 360 else if a < -180 then a + 360 else a

/-- The heading update of Car.move (sim.py lines 346-396) on the
bot/autonomous path with pause false: the passed steering angle d is
negated (angle *= -1), added to the stored angle when its absolute value is
positive, and the result is normalized. -/
def moveAngle (stored d : ℚ) : ℚ :=
  normalizeAngle (if 0 < |(-d)| then stored + (-d) else stored)

/-- Source get_distance (sim.py lines 78-79): Euclidean distance computed
with explicit products under a square root. -/
noncomputable def get_distance (coor1 coor2 : ℝ × ℝ) : ℝ :=
  Real.sqrt ((coor1.1 - coor2.1) * (coor1.1 - coor2.1) +
    (coor1.2 - coor2.2) * (coor1.2 - coor2.2))

/-- The scan loop of get_distance_list (sim.py lines 127-132), written as a
recursion over the remaining waypoints: i is the index of the next
waypoint, m the running min_dist (float("inf") initially, hence WithTop),
mi the running min_idx.  Appends every distance to the distance list and
updates (m, mi) exactly when dist < m. -/
noncomputable def distScan (pos : ℝ × ℝ) :
    List (ℝ × ℝ) → ℕ → WithTop ℝ → ℤ → List ℝ × WithTop ℝ × ℤ
  | [], _, m, mi => ([], m, mi)
  | p :: ps, i, m, mi =>
      let dist := get_distance pos p
      let next :=
        if (dist : WithTop ℝ) < m then distScan pos ps (i + 1) (dist : WithTop ℝ) (i : ℤ)
        else distScan pos ps (i + 1) m mi
      (dist :: next.1, next.2)

/-- Source get_distance_list (sim.py lines 122-134): returns
(dist_list, min_dist, min_idx, length) with min_dist starting at
float("inf") and min_idx at -1. -/
noncomputable def get_distance_list (pos : ℝ × ℝ) (waypoints : List (ℝ × ℝ)) :
    List ℝ × (WithTop ℝ) × ℤ × ℕ :=
  let r := distScan pos waypoints 0 ⊤ (-1)
  (r.1, r.2.1, r.2.2, waypoints.length)

/-- math.radians. -/
noncomputable def radians (d : ℝ) : ℝ := d * Real.pi / 180

/-- math.degrees. -/
noncomputable def degrees (r : ℝ) : ℝ := r * 180 / Real.pi

/-- Source get_target (sim.py lines 96-100). -/
noncomputable def get_target (pos : ℝ × ℝ) (angle dist : ℝ) : ℝ × ℝ :=
  (dist * Real.cos (radians angle) + pos.1,
   dist * Real.sin (radians angle) + pos.2)

/-- Python math.atan2 (sign conventions of the mathematical atan2; the
signed-zero distinctions of floats are immaterial here). -/
noncomputable def atan2 (y x : ℝ) : ℝ :=
  if 0 < x then Real.arctan (y / x)
  else if x < 0 then
    (if 0 ≤ y then Real.arctan (y / x) + Real.pi else Real.arctan (y / x) - Real.pi)
  else
    (if 0 < y then Real.pi / 2 else if y < 0 then -(Real.pi / 2) else 0)

/-- Source get_radians (sim.py lines 103-104). -/
noncomputable def get_radians (coor1 coor2 : ℝ × ℝ) : ℝ :=
  atan2 (coor2.2 - coor1.2) (coor2.1 - coor1.1)

/-- Source get_degrees (sim.py lines 107-108). -/
noncomputable def get_degrees (coor1 coor2 : ℝ × ℝ) : ℝ :=
  degrees (get_radians coor1 coor2)

/-- Python float modulo x % y for y > 0 (result in [0, y), sign of the
divisor), used by get_diff_radians. -/
noncomputable def fmod (x y : ℝ) : ℝ := x - y * ⌊x / y⌋

/-- Source get_diff_radians (sim.py lines 111-115). -/
noncomputable def get_diff_radians (angle1 angle2 : ℝ) : ℝ :=
  let diff := fmod (angle1 - angle2) (2 * Real.pi)
  if Real.pi ≤ diff then diff - 2 * Real.pi else diff

/-- Source get_diff_degrees (sim.py lines 118-119). -/
noncomputable def get_diff_degrees (angle1 angle2 : ℝ) : ℝ :=
  degrees (get_diff_radians angle1 angle2)

/-- The steering decision of Bot.move (sim.py lines 302-308) as a function
of diff_angle. -/
noncomputable def botSteer (diff : ℝ) : ℝ :=
  if 15 < |diff| then (if 0 < diff then -15 else 15) else 0

/-- The determinant of source intersection (sim.py line 188). -/
def interDet (x1 y1 x2 y2 x3 y3 x4 y4 : ℝ) : ℝ :=
  (x1 - x2) * (y3 - y4) - (y1 - y2) * (x3 - x4)

/-- The parameter t of source intersection (sim.py line 193). -/
noncomputable def interT (x1 y1 x2 y2 x3 y3 x4 y4 : ℝ) : ℝ :=
  ((x1 - x3) * (y3 - y4) - (y1 - y3) * (x3 - x4)) / interDet x1 y1 x2 y2 x3 y3 x4 y4

/-- The parameter u of source intersection (sim.py line 194). -/
noncomputable def interU (x1 y1 x2 y2 x3 y3 x4 y4 : ℝ) : ℝ :=
  -((x1 - x2) * (y1 - y3) - (y1 - y2) * (x1 - x3)) / interDet x1 y1 x2 y2 x3 y3 x4 y4

/-- Source intersection (sim.py lines 184-201): segment-segment
intersection by the parametric method; none when the determinant is zero,
and the point P1 + t(P2 - P1) exactly when t and u both lie in [0, 1]. -/
noncomputable def intersection (x1 y1 x2 y2 x3 y3 x4 y4 : ℝ) : Option (ℝ × ℝ) :=
  if interDet x1 y1 x2 y2 x3 y3 x4 y4 = 0 then none
  else
    let t := interT x1 y1 x2 y2 x3 y3 x4 y4
    let u := interU x1 y1 x2 y2 x3 y3 x4 y4
    if 0 ≤ t ∧ t ≤ 1 ∧ 0 ≤ u ∧ u ≤ 1 then
      some (x1 + t * (x2 - x1), y1 + t * (y2 - y1))
    else none

/-- The inner wall loop of get_collision (sim.py lines 209-213): the
intersections of the segment pos-target with each consecutive wall pair. -/
noncomputable def rayIntersections (pos target : ℝ × ℝ) (walls : List (ℝ × ℝ)) :
    List (ℝ × ℝ) :=
  (walls.zip walls.tail).filterMap fun w =>
    intersection pos.1 pos.2 target.1 target.2 w.1.1 w.1.2 w.2.1 w.2.2

/-- One comparison step of Python min(l, key=f): keep the incumbent unless
the new element's key is strictly smaller. -/
noncomputable def minStep {α : Type} (f : α → ℝ) (acc : Option α) (x : α) : Option α :=
  match acc with
  | none => some x
  | some b => if f x < f b then some x else some b

/-- Python min(l, key=f) as an Option (none on the empty list): keeps the
first element attaining the minimum key. -/
noncomputable def minByKey {α : Type} (f : α → ℝ) (l : List α) : Option α :=
  l.foldl (minStep f) none

/-- One comparison step of Python max(l, key=f): keep the incumbent unless
the new element's key is strictly larger. -/
noncomputable def maxStep {α : Type} (f : α → ℝ) (acc : Option α) (x : α) : Option α :=
  match acc with
  | none => some x
  | some b => if f b < f x then some x else some b

/-- Python max(l, key=f) as an Option (none on the empty list): keeps the
first element attaining the maximum key. -/
noncomputable def maxByKey {α : Type} (f : α → ℝ) (l : List α) : Option α :=
  l.foldl (maxStep f) none

/-- Source get_collision (sim.py lines 204-218): per angle keep the nearest
intersection of that angle's ray with the walls; across angles return the
farthest of those, or none when no ray hits. -/
noncomputable def get_collision (pos : ℝ × ℝ) (angles : List ℝ)
    (walls : List (ℝ × ℝ)) (dist : ℝ) : Option (ℝ × ℝ) :=
  let collisions := angles.filterMap fun angle =>
    minByKey (fun x => get_distance pos x) (rayIntersections pos (get_target pos angle dist) walls)
  maxByKey (fun x => get_distance pos x) collisions

/-- The coarse sweep angles of find_destination (sim.py line 222):
heading + angle for angle in range(-50, 50). -/
noncomputable def fdAngles (heading : ℝ) : List ℝ :=
  (List.range 100).map fun k => heading + ((k : ℝ) - 50)

/-- The wrap-around window slice of find_destination (sim.py lines
227-232): take cut elements starting at start, padding from the front of
the list when the tail is too short. -/
def listCut {α : Type} (l : List α) (start cut : ℕ) : List α :=
  let c := (l.drop start).take cut
  if c.length < cut then c ++ l.take (cut - c.length) else c

/-- The wall polyline of find_destination (sim.py lines 224-234): the
forward window of the inside boundary concatenated with the reversed
forward window of the outside boundary, with cut = length // 3. -/
def fdWalls (inside outside : List (ℝ × ℝ)) (closest_idx n : ℕ) : List (ℝ × ℝ) :=
  let cut := n / 3
  listCut inside closest_idx cut ++ (listCut outside closest_idx cut).reverse

/-- Source find_destination (sim.py lines 221-243): coarse sweep, then on a
hit a refined sweep of 20 angles of step 0.1 around the hit bearing
(np.arange(angle - 1, angle + 1, 0.1)); none when the coarse sweep finds no
collision. -/
noncomputable def find_destination (pos : ℝ × ℝ) (heading : ℝ)
    (inside outside : List (ℝ × ℝ)) (closest_idx n : ℕ) (track_width : ℝ) :
    Option (ℝ × ℝ) :=
  let dist := track_width * 20
  let walls := fdWalls inside outside closest_idx n
  match get_collision pos (fdAngles heading) walls dist with
  | some c =>
      let angle := get_degrees pos c
      get_collision pos ((List.range 20).map fun k => angle - 1 + (k : ℝ) * (1 / 10)) walls dist
  | none => none

/-- Source get_merge_waypoints (sim.py lines 805-815): the i-th output is
the elementwise sum of the i-th inputs scaled by rate, over the shorter
length. -/
noncomputable def get_merge_waypoints (points1 points2 : List (ℝ × ℝ)) (rate : ℝ) :
    List (ℝ × ℝ) :=
  (List.range (min points1.length points2.length)).map fun i =>
    (((points1.getD i (0, 0)).1 + (points2.getD i (0, 0)).1) * rate,
     ((points1.getD i (0, 0)).2 + (points2.getD i (0, 0)).2) * rate)

/-- Modelled from the spec (section 4.1): the elementwise convex
combination of two sequences at a given rate, truncated to the shorter
length.  Used only to compare the source merge against the spec's words. -/
noncomputable def mergeConvexSpec (points1 points2 : List (ℝ × ℝ)) (rate : ℝ) :
    List (ℝ × ℝ) :=
  (List.range (min points1.length points2.length)).map fun i =>
    ((1 - rate) * (points1.getD i (0, 0)).1 + rate * (points2.getD i (0, 0)).1,
     (1 - rate) * (points1.getD i (0, 0)).2 + rate * (points2.getD i (0, 0)).2)

/-- Claim C10: applied to an empty waypoint sequence, get_distance_list
returns an empty distance list, a minimum distance of positive infinity
(the top element modelling float("inf")), the sentinel index -1, and
length 0. -/
theorem get_distance_list_empty (pos : ℝ × ℝ) :
    get_distance_list pos [] = ([], ⊤, -1, 0) := rfl

/-- Claim C9 (amended): get_merge_waypoints returns a sequence of length
equal to the shorter input length whose i-th point is the elementwise sum
of the i-th input points scaled by rate, (a[i] + b[i]) * rate; at the
default rate 0.5 this coincides with the elementwise convex combination
(the midpoint), but for other rates it is not a convex combination. -/
theorem get_merge_waypoints_spec (points1 points2 : List (ℝ × ℝ)) (rate : ℝ) :
    (get_merge_waypoints points1 points2 rate).length =
      min points1.length points2.length ∧
    (∀ i, i < min points1.length points2.length →
      (get_merge_waypoints points1 points2 rate).getD i (0, 0) =
        (((points1.getD i (0, 0)).1 + (points2.getD i (0, 0)).1) * rate,
         ((points1.getD i (0, 0)).2 + (points2.getD i (0, 0)).2) * rate)) ∧
    get_merge_waypoints points1 points2 (1 / 2) =
      mergeConvexSpec points1 points2 (1 / 2) := by
  refine ⟨by simp [get_merge_waypoints], ?_, ?_⟩
  · intro i hi
    have hi' : i < ((List.range (min points1.length points2.length)).map
        (fun i =>
          ((((points1.getD i ((0 : ℝ), (0 : ℝ)))).1 + ((points2.getD i ((0 : ℝ), (0 : ℝ)))).1) * rate,
           (((points1.getD i ((0 : ℝ), (0 : ℝ)))).2 + ((points2.getD i ((0 : ℝ), (0 : ℝ)))).2) * rate))).length := by
      simpa using hi
    rw [get_merge_waypoints, List.getD_eq_getElem _ _ hi']
    simp
  · unfold get_merge_waypoints mergeConvexSpec
    apply List.map_congr_left
    intro i _
    simp only [Prod.mk.injEq]
    constructor <;> ring

/-- Witness for C9 at concrete inputs. -/
theorem get_merge_waypoints_spec_witness :
    0 < min ([((1 : ℝ), (0 : ℝ))] : List (ℝ × ℝ)).length
        ([((3 : ℝ), (0 : ℝ))] : List (ℝ × ℝ)).length ∧
    (get_merge_waypoints [((1 : ℝ), (0 : ℝ))] [((3 : ℝ), (0 : ℝ))] 2).getD 0 (0, 0) =
      ((((([((1 : ℝ), (0 : ℝ))] : List (ℝ × ℝ)).getD 0 (0, 0))).1 +
          ((([((3 : ℝ), (0 : ℝ))] : List (ℝ × ℝ)).getD 0 (0, 0))).1) * 2,
       (((([((1 : ℝ), (0 : ℝ))] : List (ℝ × ℝ)).getD 0 (0, 0))).2 +
          ((([((3 : ℝ), (0 : ℝ))] : List (ℝ × ℝ)).getD 0 (0, 0))).2) * 2) :=
  ⟨by norm_num,
    (get_merge_waypoints_spec [((1 : ℝ), (0 : ℝ))] [((3 : ℝ), (0 : ℝ))] 2).2.1 0 (by norm_num)⟩

/-- Counterexample for C9 as stated: at rate 1 the source merge of (1,0)
and (3,0) is (4,0), which is not the convex combination of the two points
at rate 1 in either orientation (those are (3,0) and (1,0)). -/
theorem get_merge_waypoints_cex :
    get_merge_waypoints [((1 : ℝ), (0 : ℝ))] [((3 : ℝ), (0 : ℝ))] 1 = [((4 : ℝ), (0 : ℝ))] ∧
    mergeConvexSpec [((1 : ℝ), (0 : ℝ))] [((3 : ℝ), (0 : ℝ))] 1 = [((3 : ℝ), (0 : ℝ))] ∧
    mergeConvexSpec [((3 : ℝ), (0 : ℝ))] [((1 : ℝ), (0 : ℝ))] 1 = [((1 : ℝ), (0 : ℝ))] ∧
    ([((4 : ℝ), (0 : ℝ))] : List (ℝ × ℝ)) ≠ [((3 : ℝ), (0 : ℝ))] ∧
    ([((4 : ℝ), (0 : ℝ))] : List (ℝ × ℝ)) ≠ [((1 : ℝ), (0 : ℝ))] := by
  refine ⟨?_, ?_, ?_, by norm_num, by norm_num⟩ <;>
    norm_num [get_merge_waypoints, mergeConvexSpec, List.range_succ]

/-- Step bound for Car.move heading updates: from a heading in [-180, 180]
and a steering delta of magnitude at most 30, the updated heading stays in
[-180, 180]. -/
lemma moveAngle_mem (a d : ℚ) (hd : |d| ≤ 30) (ha1 : -180 ≤ a) (ha2 : a ≤ 180) :
    -180 ≤ moveAngle a d ∧ moveAngle a d ≤ 180 := by
  rcases abs_le.mp hd with ⟨h1, h2⟩
  unfold moveAngle normalizeAngle
  split_ifs <;> constructor <;> linarith

/-- Claim C7 (amended): for any sequence of steering deltas each of
magnitude at most 30 (the largest delta the program ever applies), starting
from a stored heading in [-180, 180], the stored heading after every
Car.move heading update lies in the closed interval [-180, 180].  The open
interval (-180, 180] of the original claim is not invariant: -180 is
reachable and is left unchanged by the normalization. -/
theorem moveAngle_bounded (ds : List ℚ) (hds : ∀ d ∈ ds, |d| ≤ 30)
    (a : ℚ) (ha1 : -180 ≤ a) (ha2 : a ≤ 180) :
    -180 ≤ ds.foldl moveAngle a ∧ ds.foldl moveAngle a ≤ 180 := by
  induction ds generalizing a with
  | nil => exact ⟨ha1, ha2⟩
  | cons d ds ih =>
      have hstep := moveAngle_mem a d (hds d (by simp)) ha1 ha2
      simpa using ih (fun x hx => hds x (by simp [hx])) (moveAngle a d) hstep.1 hstep.2

/-- Witness for C7 at a concrete delta sequence. -/
theorem moveAngle_bounded_witness :
    (∀ d ∈ ([10, -20] : List ℚ), |d| ≤ 30) ∧ -180 ≤ (0 : ℚ) ∧ (0 : ℚ) ≤ 180 ∧
    -180 ≤ ([10, -20] : List ℚ).foldl moveAngle 0 ∧
    ([10, -20] : List ℚ).foldl moveAngle 0 ≤ 180 := by
  have h := moveAngle_bounded [10, -20] (by decide) 0 (by norm_num) (by norm_num)
  exact ⟨by decide, by norm_num, by norm_num, h.1, h.2⟩

/-- Counterexample for C7 as stated: from the reachable stored heading
-170 (a car initialized with angle 170), one applied delta of 10 (a legal
magnitude) yields exactly -180, which is outside the claimed open-below
interval (-180, 180]. -/
theorem moveAngle_cex :
    |(10 : ℚ)| ≤ 30 ∧ -180 ≤ (-170 : ℚ) ∧ (-170 : ℚ) ≤ 180 ∧
    ([10] : List ℚ).foldl moveAngle (-170) = -180 ∧
    ¬ (([10] : List ℚ).foldl moveAngle (-170) ∈ Set.Ioc (-180 : ℚ) 180) := by
  have h : ([10] : List ℚ).foldl moveAngle (-170) = -180 := by
    norm_num [moveAngle, normalizeAngle]
  refine ⟨by decide, by norm_num, by norm_num, h, ?_⟩
  rw [h]
  simp [Set.mem_Ioc]

/-- Claim C6 (amended): the lap-wrap reset fires exactly when the step
counter is positive and the previous tick's progress exceeds the current
one (on the very first tick, steps = 0, no reset fires); on wrap the step
counter is reset to 0 and the lap-start timestamp to now (the counter is
then incremented as part of the tick); the lap-time record is updated
whenever progress equals 0 and the previous tick's race time exceeds the
5-second threshold, and it is then overwritten unconditionally with that
time, even when it is worse than the stored value. -/
theorem lapTick_spec (s : LapState) (progress now : ℚ) :
    (0 < s.steps ∧ progress < s.prevProgress →
      lapWrapReset s progress now = (0, now)) ∧
    (¬ (0 < s.steps ∧ progress < s.prevProgress) →
      lapWrapReset s progress now = (s.steps, s.startTime)) ∧
    (lapTick s progress now).steps = (lapWrapReset s progress now).1 + 1 ∧
    (lapTick s progress now).startTime = (lapWrapReset s progress now).2 ∧
    (lapTick s progress now).prevTime =
      ((now - (lapWrapReset s progress now).2 : ℚ) : WithTop ℚ) ∧
    (progress = 0 ∧ ((5 : ℚ) : WithTop ℚ) < s.prevTime →
      (lapTick s progress now).record = s.prevTime) ∧
    (¬ (progress = 0 ∧ ((5 : ℚ) : WithTop ℚ) < s.prevTime) →
      (lapTick s progress now).record = s.record) := by
  unfold lapTick lapWrapReset
  refine ⟨fun h => by rw [if_pos h], fun h => by rw [if_neg h], rfl, rfl, rfl, ?_, ?_⟩
  · intro h
    simp only [if_pos h]
  · intro h
    simp only [if_neg h]

/-- Witness for C6 at a concrete state: a wrap (steps 2, progress dropping
from 90 to 0) with a previous race time of 20 seconds resets the counter
and start time and stores the 20 seconds. -/
theorem lapTick_spec_witness :
    (0 < (2 : ℕ) ∧ (0 : ℚ) < 90) ∧
    lapWrapReset ⟨2, 90, 1, ((20 : ℚ) : WithTop ℚ), ((10 : ℚ) : WithTop ℚ)⟩ 0 30 = (0, 30) ∧
    ((0 : ℚ) = 0 ∧ ((5 : ℚ) : WithTop ℚ) < ((20 : ℚ) : WithTop ℚ)) ∧
    (lapTick ⟨2, 90, 1, ((20 : ℚ) : WithTop ℚ), ((10 : ℚ) : WithTop ℚ)⟩ 0 30).record =
      ((20 : ℚ) : WithTop ℚ) := by
  have h := lapTick_spec ⟨2, 90, 1, ((20 : ℚ) : WithTop ℚ), ((10 : ℚ) : WithTop ℚ)⟩ 0 30
  have hc : (0 : ℚ) = 0 ∧ ((5 : ℚ) : WithTop ℚ) < ((20 : ℚ) : WithTop ℚ) := by
    exact ⟨rfl, by exact_mod_cast (by norm_num : (5 : ℚ) < 20)⟩
  exact ⟨⟨by norm_num, by norm_num⟩, h.1 ⟨by norm_num, by norm_num⟩, hc, h.2.2.2.2.2.1 hc⟩

/-- Counterexample for C6 as stated: with a stored best of 10 seconds and a
previous lap time of 20 seconds, the tick at progress 0 overwrites the
record with 20, although 20 is not better than the stored 10 — the code
never compares with the stored best. -/
theorem lapTick_cex :
    (lapTick ⟨3, 50, 0, ((20 : ℚ) : WithTop ℚ), ((10 : ℚ) : WithTop ℚ)⟩ 0 100).record =
      ((20 : ℚ) : WithTop ℚ) ∧
    ¬ (((20 : ℚ) : WithTop ℚ) < ((10 : ℚ) : WithTop ℚ)) := by
  constructor
  · norm_num [lapTick, lapWrapReset]
    exact_mod_cast (by norm_num : (5 : ℚ) < 20)
  · rw [WithTop.coe_lt_coe]
    norm_num

/-- A value strictly below b in the IEEE ordering is neither greater than
nor equal to b. -/
lemma flt_not_gt_eq {a b : FVal} (h : flt a b = true) :
    fgt a b = false ∧ feq a b = false := by
  cases a with
  | nan => cases b <;> simp_all [flt, fgt, feq]
  | inf => cases b <;> simp_all [flt, fgt, feq]
  | ninf => cases b <;> simp_all [flt, fgt, feq]
  | fin q =>
      cases b with
      | nan => simp [flt, fgt] at h
      | inf => simp [flt, fgt, feq]
      | ninf => simp [flt, fgt] at h
      | fin p =>
          simp only [flt, fgt, decide_eq_true_eq] at h
          simp only [fgt, feq, decide_eq_false_iff_not]
          exact ⟨lt_asymm h, ne_of_lt h⟩

/-- The candidate fold leaves the accumulator unchanged when no reward
beats or equals the running maximum. -/
lemma evalFold_no_change (f : ℤ → FVal) :
    ∀ (l : List (ℕ × ℤ)) (acc : List ℕ × FVal),
      (∀ ia ∈ l, fgt (f ia.2) acc.2 = false ∧ feq (f ia.2) acc.2 = false) →
      l.foldl (evalStep f) acc = acc := by
  intro l
  induction l with
  | nil => intro acc _; rfl
  | cons ia l ih =>
      intro acc h
      have h1 := h ia (by simp)
      have hstep : evalStep f acc ia = acc := by
        simp [evalStep, h1.1, h1.2]
      rw [List.foldl_cons, hstep]
      exact ih acc fun x hx => h x (by simp [hx])

/-- Claim C3: if every candidate's reward is strictly below the
MIN_REWARD floor (in the IEEE ordering), the winning set stays empty and
the selected action is hold: pick -1 and steering angle 0. -/
theorem selectAction_floor (f : ℤ → FVal) (rand : ℕ)
    (h : ∀ a ∈ STEERING_ANGLE, flt (f a) MIN_REWARD = true) :
    selectAction f rand = (-1, 0) := by
  have hmem : ∀ ia ∈ STEERING_ANGLE.enum, ia.2 ∈ STEERING_ANGLE := by decide
  have hfold : evalCandidates f = ([], MIN_REWARD) :=
    evalFold_no_change f STEERING_ANGLE.enum ([], MIN_REWARD)
      fun ia hia => flt_not_gt_eq (h ia.2 (hmem ia hia))
  unfold selectAction
  rw [hfold]

/-- Witness for C3: a reward function returning 0 everywhere is below the
floor and yields the hold action. -/
theorem selectAction_floor_witness :
    (∀ a ∈ STEERING_ANGLE, flt ((fun _ => FVal.fin 0) a) MIN_REWARD = true) ∧
    selectAction (fun _ => FVal.fin 0) 0 = (-1, 0) :=
  ⟨by decide, selectAction_floor (fun _ => FVal.fin 0) 0 (by decide)⟩

/-- A reward strictly greater than something is neither nan nor -infinity. -/
lemma fgt_good {r b : FVal} (h : fgt r b = true) :
    r ≠ FVal.nan ∧ r ≠ FVal.ninf := by
  cases r <;> cases b <;> simp_all [fgt]

/-- A reward IEEE-equal to a value that is neither nan nor -infinity is
itself neither nan nor -infinity. -/
lemma feq_good {r b : FVal} (h : feq r b = true)
    (hb : b ≠ FVal.nan ∧ b ≠ FVal.ninf) : r ≠ FVal.nan ∧ r ≠ FVal.ninf := by
  cases r <;> cases b <;> simp_all [feq]

/-- Invariant of the candidate fold: if the running maximum is neither nan
nor -infinity and every recorded index has a reward that is neither, the
same holds after folding any further candidates. -/
lemma evalFold_good (f : ℤ → FVal) :
    ∀ (l : List (ℕ × ℤ)) (acc : List ℕ × FVal),
      (∀ ia ∈ l, STEERING_ANGLE.getD ia.1 0 = ia.2) →
      (acc.2 ≠ FVal.nan ∧ acc.2 ≠ FVal.ninf) →
      (∀ j ∈ acc.1, f (STEERING_ANGLE.getD j 0) ≠ FVal.nan ∧
        f (STEERING_ANGLE.getD j 0) ≠ FVal.ninf) →
      ∀ j ∈ (l.foldl (evalStep f) acc).1,
        f (STEERING_ANGLE.getD j 0) ≠ FVal.nan ∧
        f (STEERING_ANGLE.getD j 0) ≠ FVal.ninf := by
  intro l
  induction l with
  | nil => intro acc _ _ hmem; exact hmem
  | cons ia l ih =>
      intro acc hl hacc hmem
      rw [List.foldl_cons]
      have hia := hl ia (by simp)
      by_cases h1 : fgt (f ia.2) acc.2 = true
      · have hstep : evalStep f acc ia = ([ia.1], f ia.2) := by
          simp [evalStep, h1]
        rw [hstep]
        refine ih _ (fun x hx => hl x (by simp [hx])) (fgt_good h1) ?_
        intro j hj
        rw [List.mem_singleton] at hj
        subst hj
        rw [hia]
        exact fgt_good h1
      · by_cases h2 : feq (f ia.2) acc.2 = true
        · have hstep : evalStep f acc ia = (acc.1 ++ [ia.1], acc.2) := by
            simp [evalStep, h1, h2]
          rw [hstep]
          refine ih _ (fun x hx => hl x (by simp [hx])) hacc ?_
          intro j hj
          rcases List.mem_append.mp hj with hj | hj
          · exact hmem j hj
          · rw [List.mem_singleton] at hj
            subst hj
            rw [hia]
            exact feq_good h2 hacc
        · have hstep : evalStep f acc ia = acc := by
            simp [evalStep, h1, h2]
          rw [hstep]
          exact ih _ (fun x hx => hl x (by simp [hx])) hacc hmem

/-- Claim C2 (amended): a reward function call returning nan or -infinity
is never selected as the winning candidate (nan compares false against
everything, -infinity never exceeds the floor); a +infinity reward,
however, is treated as greater than the floor and can win, contrary to the
original claim. -/
theorem selectAction_nonfinite (f : ℤ → FVal) (rand : ℕ) (i : ℕ)
    (h : (selectAction f rand).1 = (i : ℤ)) :
    f (STEERING_ANGLE.getD i 0) ≠ FVal.nan ∧
    f (STEERING_ANGLE.getD i 0) ≠ FVal.ninf := by
  have hl : ∀ ia ∈ STEERING_ANGLE.enum, STEERING_ANGLE.getD ia.1 0 = ia.2 := by decide
  have hall : ∀ j ∈ (evalCandidates f).1,
      f (STEERING_ANGLE.getD j 0) ≠ FVal.nan ∧
      f (STEERING_ANGLE.getD j 0) ≠ FVal.ninf :=
    evalFold_good f STEERING_ANGLE.enum ([], MIN_REWARD) hl
      (by simp [MIN_REWARD]) (by simp)
  rcases hL : (evalCandidates f).1 with _ | ⟨j, rest⟩
  · exfalso
    unfold selectAction at h
    rw [hL] at h
    simp at h
  · rcases rest with _ | ⟨k, rest2⟩
    · unfold selectAction at h
      rw [hL] at h
      simp only at h
      have hji : j = i := by exact_mod_cast h
      rw [← hji]
      exact hall j (by rw [hL]; exact List.mem_singleton_self j)
    · unfold selectAction at h
      rw [hL] at h
      simp only at h
      have hlen : rand % (j :: k :: rest2).length < (j :: k :: rest2).length :=
        Nat.mod_lt _ (by simp)
      have hg : (j :: k :: rest2).getD (rand % (j :: k :: rest2).length) 0 ∈
          (j :: k :: rest2) := by
        rw [List.getD_eq_getElem _ _ hlen]
        exact List.getElem_mem hlen
      have hji : (j :: k :: rest2).getD (rand % (j :: k :: rest2).length) 0 = i := by
        exact_mod_cast h
      rw [← hji]
      exact hall _ (by rw [hL]; exact hg)

/-- Witness for C2: with a constant finite reward of 1, candidate 0 wins
the tie-break at rand 0, and its reward is neither nan nor -infinity. -/
theorem selectAction_nonfinite_witness :
    (selectAction (fun _ => FVal.fin 1) 0).1 = ((0 : ℕ) : ℤ) ∧
    ((fun _ => FVal.fin 1 : ℤ → FVal) (STEERING_ANGLE.getD 0 0) ≠ FVal.nan ∧
     (fun _ => FVal.fin 1 : ℤ → FVal) (STEERING_ANGLE.getD 0 0) ≠ FVal.ninf) :=
  ⟨by decide, selectAction_nonfinite (fun _ => FVal.fin 1) 0 0 (by decide)⟩

/-- Concrete reward assignment used as the C2 counterexample input:
+infinity for steering angle -30, the finite value 0 otherwise. -/
def rewardInfAt : ℤ → FVal := fun a => if a = -30 then FVal.inf else FVal.fin 0

/-- Counterexample for C2 as stated: a candidate whose reward call returns
the non-finite value +infinity is selected as the winning candidate (pick
0, steering angle -30): the source comparison reward > max_reward is true
for +infinity, so it is not treated as below the floor. -/
theorem selectAction_inf_cex :
    rewardInfAt (-30) = FVal.inf ∧ selectAction rewardInfAt 0 = (0, -30) :=
  ⟨rfl, by decide⟩

/-- Claim C4: intersection returns none when the determinant
(x1-x2)(y3-y4) - (y1-y2)(x3-x4) is zero; otherwise it returns the point
P1 + t (P2 - P1) exactly when both parameters t and u lie in the inclusive
interval [0, 1]; in particular a segment starting at the other segment's
start point (an endpoint touch, t = u = 0) is reported as an
intersection. -/
theorem intersection_spec (x1 y1 x2 y2 x3 y3 x4 y4 : ℝ) :
    (interDet x1 y1 x2 y2 x3 y3 x4 y4 = 0 →
      intersection x1 y1 x2 y2 x3 y3 x4 y4 = none) ∧
    (interDet x1 y1 x2 y2 x3 y3 x4 y4 ≠ 0 →
      intersection x1 y1 x2 y2 x3 y3 x4 y4 =
        (if 0 ≤ interT x1 y1 x2 y2 x3 y3 x4 y4 ∧ interT x1 y1 x2 y2 x3 y3 x4 y4 ≤ 1 ∧
            0 ≤ interU x1 y1 x2 y2 x3 y3 x4 y4 ∧ interU x1 y1 x2 y2 x3 y3 x4 y4 ≤ 1 then
          some (x1 + interT x1 y1 x2 y2 x3 y3 x4 y4 * (x2 - x1),
                y1 + interT x1 y1 x2 y2 x3 y3 x4 y4 * (y2 - y1))
        else none)) ∧
    (interDet x1 y1 x2 y2 x3 y3 x4 y4 ≠ 0 → x3 = x1 → y3 = y1 →
      intersection x1 y1 x2 y2 x3 y3 x4 y4 = some (x1, y1)) := by
  refine ⟨fun h => by rw [intersection, if_pos h], fun h => by rw [intersection, if_neg h],
    fun h h3 h4 => ?_⟩
  have ht : interT x1 y1 x2 y2 x3 y3 x4 y4 = 0 := by
    rw [interT, h3, h4]
    simp
  have hu : interU x1 y1 x2 y2 x3 y3 x4 y4 = 0 := by
    rw [interU, h3, h4]
    simp
  rw [intersection, if_neg h]
  simp only [ht, hu]
  norm_num

/-- Witness for C4: parallel horizontal segments give no intersection; the
segment (0,0)-(2,0) crossed by (1,-1)-(1,1) intersects at (1, 0). -/
theorem intersection_spec_witness :
    interDet 0 0 1 0 0 1 1 1 = 0 ∧ intersection 0 0 1 0 0 1 1 1 = none ∧
    interDet 0 0 2 0 1 (-1) 1 1 ≠ 0 ∧ intersection 0 0 2 0 1 (-1) 1 1 = some (1, 0) := by
  have h1 : interDet 0 0 1 0 0 1 1 1 = 0 := by norm_num [interDet]
  have h2 : interDet 0 0 2 0 1 (-1) 1 1 ≠ 0 := by norm_num [interDet]
  have ht : interT 0 0 2 0 1 (-1) 1 1 = 1 / 2 := by norm_num [interT, interDet]
  have hu : interU 0 0 2 0 1 (-1) 1 1 = 1 / 2 := by norm_num [interU, interDet]
  have h3 := (intersection_spec 0 0 2 0 1 (-1) 1 1).2.1 h2
  rw [ht, hu] at h3
  norm_num at h3
  exact ⟨h1, (intersection_spec 0 0 1 0 0 1 1 1).1 h1, h2, h3⟩

/-- Python float modulo by a positive divisor lands in [0, divisor). -/
lemma fmod_mem (x y : ℝ) (hy : 0 < y) : 0 ≤ fmod x y ∧ fmod x y < y := by
  have hfl : (⌊x / y⌋ : ℝ) ≤ x / y := Int.floor_le _
  have hfu : x / y < ⌊x / y⌋ + 1 := Int.lt_floor_add_one _
  have hyne : y ≠ 0 := ne_of_gt hy
  constructor
  · rw [fmod, sub_nonneg]
    calc y * (⌊x / y⌋ : ℝ) ≤ y * (x / y) := by
          exact mul_le_mul_of_nonneg_left hfl hy.le
      _ = x := by field_simp
  · rw [fmod, sub_lt_iff_lt_add]
    calc x = y * (x / y) := by field_simp
      _ < y * ((⌊x / y⌋ : ℝ) + 1) := by
          exact mul_lt_mul_of_pos_left hfu hy
      _ = y + y * (⌊x / y⌋ : ℝ) := by ring

/-- The normalized angular difference in radians lies in [-pi, pi). -/
lemma get_diff_radians_mem (a1 a2 : ℝ) :
    -Real.pi ≤ get_diff_radians a1 a2 ∧ get_diff_radians a1 a2 < Real.pi := by
  have hpi := Real.pi_pos
  have h2pi : (0 : ℝ) < 2 * Real.pi := by linarith
  have h := fmod_mem (a1 - a2) (2 * Real.pi) h2pi
  rw [get_diff_radians]
  split_ifs with hc
  · constructor <;> linarith
  · constructor <;> linarith [not_le.mp hc]

/-- Claim C8 (amended): the signed angular difference used by Bot.move is
normalized into the half-open interval [-180, 180) degrees (not into
(-180, 180]: the modulo-based normalization can return exactly -180 and
never returns +180); the commanded steering is 0 when its absolute value
is at most 15 degrees and otherwise a fixed 15-degree correction whose
sign is opposite to the sign of the difference. -/
theorem get_diff_degrees_spec (a1 a2 d : ℝ) :
    (-180 ≤ get_diff_degrees a1 a2 ∧ get_diff_degrees a1 a2 < 180) ∧
    (|d| ≤ 15 → botSteer d = 0) ∧
    (15 < d → botSteer d = -15) ∧
    (d < -15 → botSteer d = 15) := by
  have hpi := Real.pi_pos
  have hr := get_diff_radians_mem a1 a2
  refine ⟨⟨?_, ?_⟩, ?_, ?_, ?_⟩
  · rw [get_diff_degrees, degrees, le_div_iff₀ hpi]
    calc (-180 : ℝ) * Real.pi = -Real.pi * 180 := by ring
      _ ≤ get_diff_radians a1 a2 * 180 :=
        mul_le_mul_of_nonneg_right hr.1 (by norm_num)
  · rw [get_diff_degrees, degrees, div_lt_iff₀ hpi]
    calc get_diff_radians a1 a2 * 180 < Real.pi * 180 :=
      mul_lt_mul_of_pos_right hr.2 (by norm_num)
      _ = 180 * Real.pi := by ring
  · intro hd
    rw [botSteer, if_neg (not_lt.mpr hd)]
  · intro hd
    have habs : 15 < |d| := lt_of_lt_of_le hd (le_abs_self d)
    rw [botSteer, if_pos habs, if_pos (by linarith)]
  · intro hd
    have habs : 15 < |d| := by
      rw [abs_of_neg (by linarith : d < 0)]
      linarith
    rw [botSteer, if_pos habs, if_neg (by linarith : ¬ 0 < d)]

/-- Witness for C8: a zero angular error commands zero steering, and a
25-degree error commands the opposite-sign 15-degree correction. -/
theorem get_diff_degrees_spec_witness :
    (-180 ≤ get_diff_degrees 0 0 ∧ get_diff_degrees 0 0 < 180) ∧
    (|(0 : ℝ)| ≤ 15 ∧ botSteer 0 = 0) ∧
    ((15 : ℝ) < 25 ∧ botSteer 25 = -15) :=
  ⟨(get_diff_degrees_spec 0 0 0).1,
   ⟨by norm_num, (get_diff_degrees_spec 0 0 0).2.1 (by norm_num)⟩,
   ⟨by norm_num, (get_diff_degrees_spec 0 0 25).2.2.1 (by norm_num)⟩⟩

/-- Counterexample for C8 as stated: an angular difference of exactly pi
radians (heading pi, bearing 0) is normalized to -pi, i.e. -180 degrees,
which lies outside the claimed interval (-180, 180]. -/
theorem get_diff_degrees_cex :
    get_diff_degrees Real.pi 0 = -180 ∧
    ¬ (get_diff_degrees Real.pi 0 ∈ Set.Ioc (-180 : ℝ) 180) := by
  have hpi := Real.pi_pos
  have hne := Real.pi_ne_zero
  have hdiv : (Real.pi - 0) / (2 * Real.pi) = 1 / 2 := by
    rw [sub_zero]
    field_simp
    ring
  have hfl : ⌊(1 / 2 : ℝ)⌋ = 0 := by norm_num
  have h1 : fmod (Real.pi - 0) (2 * Real.pi) = Real.pi := by
    rw [fmod, hdiv, hfl]
    push_cast
    ring
  have h2 : get_diff_radians Real.pi 0 = -Real.pi := by
    rw [get_diff_radians]
    simp only [h1, if_pos le_rfl]
    ring
  have h3 : get_diff_degrees Real.pi 0 = -180 := by
    rw [get_diff_degrees, degrees, h2]
    field_simp
    ring
  refine ⟨h3, ?_⟩
  rw [h3, Set.mem_Ioc]
  norm_num

/-- A getD lookup at a valid index is a member of the list. -/
lemma getD_mem_of_lt {α : Type} (l : List α) (d : α) (k : ℕ) (hk : k < l.length) :
    l.getD k d ∈ l := by
  rw [List.getD_eq_getElem l d hk]
  exact List.getElem_mem hk

/-- The distance list produced by the scan is the elementwise distance map
of the waypoints. -/
lemma distScan_dists (pos : ℝ × ℝ) :
    ∀ (ps : List (ℝ × ℝ)) (i : ℕ) (m : WithTop ℝ) (mi : ℤ),
      (distScan pos ps i m mi).1 = ps.map (get_distance pos) := by
  intro ps
  induction ps with
  | nil => intro i m mi; rfl
  | cons p ps ih =>
      intro i m mi
      simp only [distScan, List.map_cons]
      split_ifs with hc <;> simp [ih]

/-- Characterization of the min/argmin tracking of the scan loop: either no
waypoint beats the initial running minimum and the state is unchanged, or
the state holds the first waypoint attaining the minimum distance (its
distance strictly below the initial bound, no waypoint strictly closer, and
every earlier waypoint strictly farther). -/
lemma distScan_min (pos : ℝ × ℝ) :
    ∀ (ps : List (ℝ × ℝ)) (i : ℕ) (m : WithTop ℝ) (mi : ℤ),
      ((distScan pos ps i m mi).2 = (m, mi) ∧
        ∀ p ∈ ps, ¬ ((get_distance pos p : WithTop ℝ) < m)) ∨
      (∃ j, j < ps.length ∧
        (distScan pos ps i m mi).2 =
          ((get_distance pos (ps.getD j (0, 0)) : WithTop ℝ), ((i + j : ℕ) : ℤ)) ∧
        ((get_distance pos (ps.getD j (0, 0)) : WithTop ℝ) < m) ∧
        (∀ k, k < ps.length →
          get_distance pos (ps.getD j (0, 0)) ≤ get_distance pos (ps.getD k (0, 0))) ∧
        (∀ k, k < j →
          get_distance pos (ps.getD j (0, 0)) < get_distance pos (ps.getD k (0, 0)))) := by
  intro ps
  induction ps with
  | nil =>
      intro i m mi
      left
      exact ⟨rfl, by simp⟩
  | cons p ps ih =>
      intro i m mi
      have hstep : (distScan pos (p :: ps) i m mi).2 =
          (if (get_distance pos p : WithTop ℝ) < m then
            distScan pos ps (i + 1) (get_distance pos p : WithTop ℝ) (i : ℤ)
          else distScan pos ps (i + 1) m mi).2 := rfl
      by_cases hc : (get_distance pos p : WithTop ℝ) < m
      · rw [if_pos hc] at hstep
        rcases ih (i + 1) (get_distance pos p : WithTop ℝ) (i : ℤ) with
          ⟨heq, hall⟩ | ⟨j, hj, heq, hlt, hmin, hfirst⟩
        · right
          refine ⟨0, by simp, ?_, by simpa using hc, ?_, fun k hk => absurd hk (by omega)⟩
          · rw [hstep, heq]
            simp
          · intro k hk
            cases k with
            | zero => simp
            | succ k =>
                have hk' : k < ps.length := by simpa using hk
                have hnot := hall (ps.getD k (0, 0)) (getD_mem_of_lt ps (0, 0) k hk')
                have hle : get_distance pos p ≤ get_distance pos (ps.getD k (0, 0)) :=
                  WithTop.coe_le_coe.mp (not_lt.mp hnot)
                simpa using hle
        · right
          refine ⟨j + 1, by simpa using hj, ?_, ?_, ?_, ?_⟩
          · rw [hstep, heq]
            simp only [List.getD_cons_succ]
            congr 1
            push_cast
            ring
          · simp only [List.getD_cons_succ]
            exact lt_trans hlt hc
          · intro k hk
            cases k with
            | zero =>
                simp only [List.getD_cons_succ, List.getD_cons_zero]
                exact le_of_lt (WithTop.coe_lt_coe.mp hlt)
            | succ k =>
                simp only [List.getD_cons_succ]
                exact hmin k (by simpa using hk)
          · intro k hk
            cases k with
            | zero =>
                simp only [List.getD_cons_succ, List.getD_cons_zero]
                exact WithTop.coe_lt_coe.mp hlt
            | succ k =>
                simp only [List.getD_cons_succ]
                exact hfirst k (by omega)
      · rw [if_neg hc] at hstep
        rcases ih (i + 1) m mi with ⟨heq, hall⟩ | ⟨j, hj, heq, hlt, hmin, hfirst⟩
        · left
          refine ⟨by rw [hstep, heq], ?_⟩
          intro q hq
          rcases List.mem_cons.mp hq with hq | hq
          · rw [hq]
            exact hc
          · exact hall q hq
        · right
          have hm : m ≤ (get_distance pos p : WithTop ℝ) := not_lt.mp hc
          have hpd : get_distance pos (ps.getD j (0, 0)) < get_distance pos p :=
            WithTop.coe_lt_coe.mp (lt_of_lt_of_le hlt hm)
          refine ⟨j + 1, by simpa using hj, ?_, ?_, ?_, ?_⟩
          · rw [hstep, heq]
            simp only [List.getD_cons_succ]
            congr 1
            push_cast
            ring
          · simp only [List.getD_cons_succ]
            exact hlt
          · intro k hk
            cases k with
            | zero =>
                simp only [List.getD_cons_succ, List.getD_cons_zero]
                exact le_of_lt hpd
            | succ k =>
                simp only [List.getD_cons_succ]
                exact hmin k (by simpa using hk)
          · intro k hk
            cases k with
            | zero =>
                simp only [List.getD_cons_succ, List.getD_cons_zero]
                exact hpd
            | succ k =>
                simp only [List.getD_cons_succ]
                exact hfirst k (by omega)

/-- Claim C1: on a non-empty waypoint sequence, get_distance_list returns
the index of a waypoint no other waypoint is strictly closer than,
together with that waypoint's distance as the minimum distance; among
tied minima the first index in scan order wins (every earlier index is
strictly farther). -/
theorem get_distance_list_nearest (pos : ℝ × ℝ) (wps : List (ℝ × ℝ)) (h : wps ≠ []) :
    ∃ j, j < wps.length ∧
      (get_distance_list pos wps).2.2.1 = ((j : ℕ) : ℤ) ∧
      (get_distance_list pos wps).2.1 =
        ((get_distance pos (wps.getD j (0, 0)) : ℝ) : WithTop ℝ) ∧
      (∀ k, k < wps.length →
        ¬ (get_distance pos (wps.getD k (0, 0)) < get_distance pos (wps.getD j (0, 0)))) ∧
      (∀ k, k < j →
        get_distance pos (wps.getD j (0, 0)) < get_distance pos (wps.getD k (0, 0))) := by
  rcases distScan_min pos wps 0 ⊤ (-1) with ⟨_, hall⟩ | ⟨j, hj, heq, _, hmin, hfirst⟩
  · exfalso
    rcases List.exists_mem_of_ne_nil wps h with ⟨p, hp⟩
    exact hall p hp (WithTop.coe_lt_top _)
  · refine ⟨j, hj, ?_, ?_, ?_, hfirst⟩
    · show (distScan pos wps 0 ⊤ (-1)).2.2 = ((j : ℕ) : ℤ)
      rw [heq]
      simp
    · show (distScan pos wps 0 ⊤ (-1)).2.1 =
        ((get_distance pos (wps.getD j (0, 0)) : ℝ) : WithTop ℝ)
      rw [heq]
    · intro k hk
      exact not_lt.mpr (hmin k hk)

/-- Witness for C1 on a concrete two-waypoint sequence. -/
theorem get_distance_list_nearest_witness :
    ([((0 : ℝ), (0 : ℝ)), ((3 : ℝ), (4 : ℝ))] : List (ℝ × ℝ)) ≠ [] ∧
    ∃ j, j < ([((0 : ℝ), (0 : ℝ)), ((3 : ℝ), (4 : ℝ))] : List (ℝ × ℝ)).length ∧
      (get_distance_list (0, 0) [((0 : ℝ), (0 : ℝ)), ((3 : ℝ), (4 : ℝ))]).2.2.1 = ((j : ℕ) : ℤ) ∧
      (get_distance_list (0, 0) [((0 : ℝ), (0 : ℝ)), ((3 : ℝ), (4 : ℝ))]).2.1 =
        ((get_distance (0, 0)
          (([((0 : ℝ), (0 : ℝ)), ((3 : ℝ), (4 : ℝ))] : List (ℝ × ℝ)).getD j (0, 0)) : ℝ) : WithTop ℝ) ∧
      (∀ k, k < ([((0 : ℝ), (0 : ℝ)), ((3 : ℝ), (4 : ℝ))] : List (ℝ × ℝ)).length →
        ¬ (get_distance (0, 0)
            (([((0 : ℝ), (0 : ℝ)), ((3 : ℝ), (4 : ℝ))] : List (ℝ × ℝ)).getD k (0, 0)) <
          get_distance (0, 0)
            (([((0 : ℝ), (0 : ℝ)), ((3 : ℝ), (4 : ℝ))] : List (ℝ × ℝ)).getD j (0, 0)))) ∧
      (∀ k, k < j →
        get_distance (0, 0)
          (([((0 : ℝ), (0 : ℝ)), ((3 : ℝ), (4 : ℝ))] : List (ℝ × ℝ)).getD j (0, 0)) <
        get_distance (0, 0)
          (([((0 : ℝ), (0 : ℝ)), ((3 : ℝ), (4 : ℝ))] : List (ℝ × ℝ)).getD k (0, 0))) :=
  ⟨by simp, get_distance_list_nearest (0, 0) [((0 : ℝ), (0 : ℝ)), ((3 : ℝ), (4 : ℝ))] (by simp)⟩

/-- Folding the min step from a present incumbent yields a present result
that is the incumbent or a list member, has a key at most the incumbent's,
and a key at most every list member's. -/
lemma minFold_spec {α : Type} (f : α → ℝ) :
    ∀ (l : List α) (b : α),
      ∃ c, l.foldl (minStep f) (some b) = some c ∧ (c = b ∨ c ∈ l) ∧
        f c ≤ f b ∧ ∀ x ∈ l, f c ≤ f x := by
  intro l
  induction l with
  | nil => intro b; exact ⟨b, rfl, Or.inl rfl, le_refl _, by simp⟩
  | cons x l ih =>
      intro b
      rw [List.foldl_cons]
      by_cases hc : f x < f b
      · have hstep : minStep f (some b) x = some x := by simp [minStep, hc]
        rw [hstep]
        rcases ih x with ⟨c, hc1, hc2, hc3, hc4⟩
        refine ⟨c, hc1, ?_, le_trans hc3 (le_of_lt hc), ?_⟩
        · rcases hc2 with h | h
          · exact Or.inr (by rw [h]; simp)
          · exact Or.inr (by simp [h])
        · intro y hy
          rcases List.mem_cons.mp hy with h | h
          · rw [h]
            exact hc3
          · exact hc4 y h
      · have hstep : minStep f (some b) x = some b := by simp [minStep, hc]
        rw [hstep]
        rcases ih b with ⟨c, hc1, hc2, hc3, hc4⟩
        refine ⟨c, hc1, ?_, hc3, ?_⟩
        · rcases hc2 with h | h
          · exact Or.inl h
          · exact Or.inr (by simp [h])
        · intro y hy
          rcases List.mem_cons.mp hy with h | h
          · rw [h]
            exact le_trans hc3 (not_lt.mp hc)
          · exact hc4 y h

/-- Folding the max step from a present incumbent yields a present result
that is the incumbent or a list member, has a key at least the incumbent's,
and a key at least every list member's. -/
lemma maxFold_spec {α : Type} (f : α → ℝ) :
    ∀ (l : List α) (b : α),
      ∃ c, l.foldl (maxStep f) (some b) = some c ∧ (c = b ∨ c ∈ l) ∧
        f b ≤ f c ∧ ∀ x ∈ l, f x ≤ f c := by
  intro l
  induction l with
  | nil => intro b; exact ⟨b, rfl, Or.inl rfl, le_refl _, by simp⟩
  | cons x l ih =>
      intro b
      rw [List.foldl_cons]
      by_cases hc : f b < f x
      · have hstep : maxStep f (some b) x = some x := by simp [maxStep, hc]
        rw [hstep]
        rcases ih x with ⟨c, hc1, hc2, hc3, hc4⟩
        refine ⟨c, hc1, ?_, le_trans (le_of_lt hc) hc3, ?_⟩
        · rcases hc2 with h | h
          · exact Or.inr (by rw [h]; simp)
          · exact Or.inr (by simp [h])
        · intro y hy
          rcases List.mem_cons.mp hy with h | h
          · rw [h]
            exact hc3
          · exact hc4 y h
      · have hstep : maxStep f (some b) x = some b := by simp [maxStep, hc]
        rw [hstep]
        rcases ih b with ⟨c, hc1, hc2, hc3, hc4⟩
        refine ⟨c, hc1, ?_, hc3, ?_⟩
        · rcases hc2 with h | h
          · exact Or.inl h
          · exact Or.inr (by simp [h])
        · intro y hy
          rcases List.mem_cons.mp hy with h | h
          · rw [h]
            exact le_trans (not_lt.mp hc) hc3
          · exact hc4 y h

/-- minByKey is none exactly on the empty list. -/
lemma minByKey_eq_none {α : Type} (f : α → ℝ) (l : List α) :
    minByKey f l = none ↔ l = [] := by
  constructor
  · intro h
    cases l with
    | nil => rfl
    | cons x l =>
        exfalso
        rw [minByKey, List.foldl_cons] at h
        have hstep : minStep f none x = some x := rfl
        rw [hstep] at h
        rcases minFold_spec f l x with ⟨c, hc1, _⟩
        rw [hc1] at h
        exact Option.noConfusion h
  · intro h
    rw [h]
    rfl

/-- maxByKey is none exactly on the empty list. -/
lemma maxByKey_eq_none {α : Type} (f : α → ℝ) (l : List α) :
    maxByKey f l = none ↔ l = [] := by
  constructor
  · intro h
    cases l with
    | nil => rfl
    | cons x l =>
        exfalso
        rw [maxByKey, List.foldl_cons] at h
        have hstep : maxStep f none x = some x := rfl
        rw [hstep] at h
        rcases maxFold_spec f l x with ⟨c, hc1, _⟩
        rw [hc1] at h
        exact Option.noConfusion h
  · intro h
    rw [h]
    rfl

/-- A present minByKey result is a member of minimum key. -/
lemma minByKey_spec {α : Type} (f : α → ℝ) (l : List α) (c : α)
    (h : minByKey f l = some c) : c ∈ l ∧ ∀ x ∈ l, f c ≤ f x := by
  cases l with
  | nil => exact Option.noConfusion h
  | cons x l =>
      rw [minByKey, List.foldl_cons] at h
      have hstep : minStep f none x = some x := rfl
      rw [hstep] at h
      rcases minFold_spec f l x with ⟨d, hd1, hd2, hd3, hd4⟩
      rw [hd1] at h
      injection h with h
      subst h
      constructor
      · rcases hd2 with h | h
        · rw [h]
          simp
        · simp [h]
      · intro y hy
        rcases List.mem_cons.mp hy with h | h
        · rw [h]
          exact hd3
        · exact hd4 y h

/-- A present maxByKey result is a member of maximum key. -/
lemma maxByKey_spec {α : Type} (f : α → ℝ) (l : List α) (c : α)
    (h : maxByKey f l = some c) : c ∈ l ∧ ∀ x ∈ l, f x ≤ f c := by
  cases l with
  | nil => exact Option.noConfusion h
  | cons x l =>
      rw [maxByKey, List.foldl_cons] at h
      have hstep : maxStep f none x = some x := rfl
      rw [hstep] at h
      rcases maxFold_spec f l x with ⟨d, hd1, hd2, hd3, hd4⟩
      rw [hd1] at h
      injection h with h
      subst h
      constructor
      · rcases hd2 with h | h
        · rw [h]
          simp
        · simp [h]
      · intro y hy
        rcases List.mem_cons.mp hy with h | h
        · rw [h]
          exact hd3
        · exact hd4 y h

/-- Claim C5: get_collision returns none exactly when no wall segment
intersects any cast ray; when it returns a point, that point is the
per-angle nearest intersection (a ray intersection of minimum distance to
the position) for some swept angle, and its distance is at least that of
every other angle's nearest intersection; and when the coarse sweep of
find_destination finds no collision, find_destination returns none. -/
theorem get_collision_spec (pos : ℝ × ℝ) (angles : List ℝ) (walls : List (ℝ × ℝ))
    (dist : ℝ) (heading : ℝ) (inside outside : List (ℝ × ℝ)) (ci n : ℕ) (tw : ℝ) :
    (get_collision pos angles walls dist = none ↔
      ∀ a ∈ angles, rayIntersections pos (get_target pos a dist) walls = []) ∧
    (∀ c, get_collision pos angles walls dist = some c →
      (∃ a ∈ angles,
        minByKey (fun x => get_distance pos x)
          (rayIntersections pos (get_target pos a dist) walls) = some c ∧
        c ∈ rayIntersections pos (get_target pos a dist) walls ∧
        ∀ p ∈ rayIntersections pos (get_target pos a dist) walls,
          get_distance pos c ≤ get_distance pos p) ∧
      (∀ b ∈ angles, ∀ m,
        minByKey (fun x => get_distance pos x)
          (rayIntersections pos (get_target pos b dist) walls) = some m →
        get_distance pos m ≤ get_distance pos c)) ∧
    (get_collision pos (fdAngles heading) (fdWalls inside outside ci n) (tw * 20) = none →
      find_destination pos heading inside outside ci n tw = none) := by
  refine ⟨?_, ?_, ?_⟩
  · simp only [get_collision, maxByKey_eq_none, List.filterMap_eq_nil_iff]
    constructor
    · intro h a ha
      exact (minByKey_eq_none _ _).mp (h a ha)
    · intro h a ha
      exact (minByKey_eq_none _ _).mpr (h a ha)
  · intro c hc
    simp only [get_collision] at hc
    rcases maxByKey_spec _ _ _ hc with ⟨hmem, hle⟩
    rcases List.mem_filterMap.mp hmem with ⟨a, ha, hmin⟩
    rcases minByKey_spec _ _ _ hmin with ⟨hcm, hcle⟩
    refine ⟨⟨a, ha, hmin, hcm, hcle⟩, ?_⟩
    intro b hb m hm
    exact hle m (List.mem_filterMap.mpr ⟨b, hb, hm⟩)
  · intro h
    simp only [find_destination, h]

/-- Witness for C5: with empty boundary polylines the wall list is empty,
no ray intersects anything, the coarse sweep yields none, and
find_destination returns none. -/
theorem get_collision_spec_witness :
    get_collision ((0 : ℝ), (0 : ℝ)) (fdAngles 0) (fdWalls [] [] 0 0) ((0 : ℝ) * 20) = none ∧
    find_destination ((0 : ℝ), (0 : ℝ)) 0 [] [] 0 0 0 = none := by
  have hwalls : fdWalls ([] : List (ℝ × ℝ)) [] 0 0 = [] := by
    simp [fdWalls, listCut]
  have hnone : get_collision ((0 : ℝ), (0 : ℝ)) (fdAngles 0) (fdWalls [] [] 0 0)
      ((0 : ℝ) * 20) = none := by
    rw [hwalls]
    simp only [get_collision, maxByKey_eq_none, List.filterMap_eq_nil_iff]
    intro a _
    rw [minByKey_eq_none]
    rfl
  exact ⟨hnone,
    (get_collision_spec ((0 : ℝ), (0 : ℝ)) (fdAngles 0) (fdWalls [] [] 0 0)
      ((0 : ℝ) * 20) 0 [] [] 0 0 0).2.2 hnone⟩

end DeepracerSim
